import Mathlib

/-!
Formal model of the MISST playback engine, `src/MISST/MISSTplayer.py`.

Modelling conventions:

* 16-bit signed audio samples are modelled as `ℤ` values; the byte-level
  little-endian encode/decode performed by `adjust_volume` is modelled at the
  sample level (one `ℤ` per 16-bit sample).
* Python `float` arithmetic is modelled exactly: `ℚ` for parsed setting
  values and for integer/volume arithmetic, `ℝ` inside the DSP chain and
  `ℂ` for the Fourier transform.  Every concrete input appearing in a
  theorem below is exactly representable in binary floating point, so the
  idealisation does not change the facts being verified.
* A Python exception is modelled by `Option`/`none` at the point where the
  code raises, and a `try/except` block by the corresponding `match`.
* `scipy.signal.butter` (an external library call) returns a fixed pair of
  real coefficient vectors; no claim depends on their values, so the model
  is parametric in those two lists (`bb`, `ba`).
-/

namespace MISST

/-- Python `int(x)` applied to a float: truncation toward zero. -/
def pyTrunc (q : ℚ) : ℤ := if 0 ≤ q then ⌊q⌋ else ⌈q⌉

def int16Min : ℤ := -32768

def int16Max : ℤ := 32767

/-- `MISSTplayer.adjust_volume` (lines 99-112): decode each 16-bit sample,
multiply by `volume`, truncate with Python `int(...)`, and re-encode with
`int.to_bytes(2, signed=True)`.  `to_bytes` raises `OverflowError` when the
scaled sample leaves the 16-bit signed range; that exception is modelled by
`none`.  No clamping is performed by the code. -/
def adjust_volume : List ℤ → ℚ → Option (List ℤ)
  | [], _ => some []
  | s :: rest, v =>
    let s2 := pyTrunc ((s : ℚ) * v)
    if int16Min ≤ s2 ∧ s2 ≤ int16Max then
      match adjust_volume rest v with
      | some out => some (s2 :: out)
      | none => none
    else none

/-- Clamping to the 16-bit signed range, as the specification describes. -/
def clamp16 (z : ℤ) : ℤ := max int16Min (min int16Max z)

/-- The volume stage exactly as the specification text describes it
(`sample' = round(sample * volume)`, clamped): the reference point for the
refinement claim C1.  This follows the spec wording, not the code. -/
def adjust_volume_spec (data : List ℤ) (volume : ℚ) : List ℤ :=
  data.map fun s => clamp16 (round ((s : ℚ) * volume))

/-- `np.sum(arrays, axis=0)` on a Python list of 1-D arrays
(`MISSTplayer.save`, line 315).  The stacking performed by numpy requires
all arrays to have the same length; a ragged list raises `ValueError`
(modelled by `none`).  An empty list would produce the scalar `0.0`, which
`sf.write` then rejects, so it is also modelled by `none`. -/
def npSumAxis0 : List (List ℚ) → Option (List ℚ)
  | [] => none
  | l :: rest =>
    if rest.all fun m => m.length = l.length then
      some (rest.foldl (fun acc m => List.zipWith (· + ·) acc m) l)
    else none

/-- `MISSTplayer.save` (lines 293-317), audio path only (the optional cover
art embedding does not touch the audio buffer).  A track is a pair of its
decoded samples and its sample rate; `sample_rate` is taken from the first
loaded file.  Each track is scaled by its volume and the scaled tracks are
summed with `np.sum(..., axis=0)`. -/
def save (tracks : List (List ℚ × ℕ)) (volumes : List ℚ) : Option (List ℚ × ℕ) :=
  let audio := tracks.map Prod.fst
  let adjusted := List.zipWith (fun t v => t.map (· * v)) audio volumes
  match npSumAxis0 adjusted, (tracks.map Prod.snd).head? with
  | some mix, some sr => some (mix, sr)
  | _, _ => none

/-- One iteration of the `while` body of `MISSTplayer.play` (lines 54-60):
`for i, stream in enumerate(self.streams): data = self.get_data(i);
if data: stream.write(data) else: break`.  `chunks` holds the data
`get_data` yields for each track this cycle (`get_data i` reads and
mutates only track `i`, so the per-track results do not depend on the
order in which the loop visits them).  The returned list contains the
chunks actually written, in track order; the `break` ends the `for` loop
at the first empty chunk. -/
def playCycle : List (List ℤ) → List (List ℤ)
  | [] => []
  | c :: rest => if c.isEmpty then [] else c :: playCycle rest

/-- The pause flag together with whether a streaming thread has been
spawned (`threading.Thread(target=self.play, daemon=True).start()`). -/
structure EngineCtl where
  paused : Bool
  loopActive : Bool

/-- State right after `MISSTplayer.__init__` (line 29 sets
`self.paused = False`; no streaming thread is started there). -/
def freshCtl : EngineCtl := ⟨false, false⟩

/-- `MISSTplayer.resume` (lines 332-338): only `if self.paused:` clears the
flag and spawns the streaming loop. -/
def resume (st : EngineCtl) : EngineCtl :=
  if st.paused then ⟨false, true⟩ else st

/-- The live values `get_data` pulls from the settings store, after
parsing: `none` models `MISSTsettings.getSetting`/`float(...)` raising for
that key (missing or malformed value). -/
structure Settings where
  speed : Option ℚ
  pitch : Option ℚ
  reverb : Option ℚ
  bass : Option ℚ
  eqOn : Option Bool
  bands : Option (List ℚ)

/-- Per-player mutable state of `MISSTplayer`: decoded track data, read
positions (frames), volumes, pause flag.  Tracks are modelled
single-channel, so one frame is one sample; the channel interleaving is
orthogonal to every claim about positions and control flow. -/
structure PlayerState where
  files : List (List ℤ)
  positions : List ℕ
  volumes : List ℚ
  paused : Bool

def chunk_size : ℕ := 1024

/-- `sf.read(file, start=pos, frames=chunk_size)`: the slice starting at
`pos`, at most `chunk_size` frames, empty at or past end of file. -/
def readChunk (track : List ℤ) (pos : ℕ) : List ℤ :=
  (track.drop pos).take chunk_size

/-- `MISSTplayer.set_position` (lines 283-291): stores the given position
unconditionally (no clamping against the track length). -/
def set_position (st : PlayerState) (i : ℕ) (pos : ℕ) : PlayerState :=
  { st with positions := st.positions.set i pos }

/-- `MISSTplayer.change_files` (lines 349-379): installs the new files and
volumes, resets every position to 0, reopens the streams and restarts the
loop with `paused = False`. -/
def change_files (_st : PlayerState) (newFiles : List (List ℤ)) (volumes : List ℚ) :
    PlayerState :=
  { files := newFiles
    positions := List.replicate newFiles.length 0
    volumes := volumes
    paused := false }

/-- The invariant claimed in the specification: no track position exceeds
that track's total frame count. -/
abbrev posInvariant (st : PlayerState) : Prop :=
  ∀ i < st.files.length, st.positions.getD i 0 ≤ (st.files.getD i []).length

section DSP

variable {α : Type} [LinearOrderedField α]

/-- Convolution-side accumulator of `scipy.signal.lfilter`:
`dotRev b x n = Σ_{k ≤ n, k < len b} b_k · x_{n-k}` (absent samples read
as 0, matching lfilter's zero initial conditions). -/
def dotRev : List α → List α → ℕ → α
  | [], _, _ => 0
  | c :: bs, x, n => c * x.getD n 0 + if n = 0 then 0 else dotRev bs x (n - 1)

/-- Feedback-side accumulator: pointwise product of the feedback
coefficients `a[1:]` with the previously computed outputs, most recent
first (missing outputs read as 0). -/
def dotProd : List α → List α → α
  | [], _ => 0
  | _ :: _, [] => 0
  | c :: cs, y :: ys => c * y + dotProd cs ys

/-- First `n` outputs of `scipy.signal.lfilter b a x`, most recent first,
following the standard difference equation
`a[0]·y[n] = Σ b[k]·x[n-k] − Σ_{k≥1} a[k]·y[n-k]`. -/
def lfilterAux (b a x : List α) : ℕ → List α
  | 0 => []
  | n + 1 =>
    let prev := lfilterAux b a x n
    ((dotRev b x n - dotProd a.tail prev) / a.getD 0 0) :: prev

/-- `scipy.signal.lfilter b a x`: output of the same length as `x`. -/
def lfilter (b a x : List α) : List α := (lfilterAux b a x x.length).reverse

/-- `MISSTplayer.apply_reverb` (lines 182-195): clamp the factor to
`[0, 1]`; build the decay envelope `decay = zeros_like(samples)`,
`decay[0] = 1.0`, `decay[-1] = factor` (note that for a 1-sample chunk the
second assignment overwrites the first); run the feedback filter
`lfilter [1] [1, -factor]` followed by the FIR filter `lfilter decay [1]`.
For an empty chunk the code raises `IndexError` at `decay[0]`; no claim
evaluates the model on an empty chunk. -/
def apply_reverb (samples : List α) (reverb_factor : α) : List α :=
  let f := if reverb_factor < 0 then 0 else if reverb_factor > 1 then 1 else reverb_factor
  let decay := ((List.replicate samples.length (0 : α)).set 0 1).set (samples.length - 1) f
  lfilter decay [1] (lfilter [1] [1, -f] samples)

variable [FloorRing α]

/-- `np.interp x (np.arange fp.length) fp`: linear interpolation on the
integer grid, clamped at both ends. -/
def interpAt (fp : List α) (x : α) : α :=
  if x ≤ 0 then fp.getD 0 0
  else if (fp.length : α) - 1 ≤ x then fp.getD (fp.length - 1) 0
  else
    let i := (⌊x⌋).toNat
    fp.getD i 0 + (x - (i : α)) * (fp.getD (i + 1) 0 - fp.getD i 0)

/-- `MISSTplayer.modify_speed` (lines 149-165): clamp the factor to
`[0.5, 2.0]`, then resample to `int(len / factor)` samples on the grid
`np.linspace(0, len, m, endpoint=False)`, i.e. query points `j·len/m`. -/
def modify_speed (samples : List α) (speed_factor : α) : List α :=
  let f := if speed_factor ≤ 1 / 2 then 1 / 2
           else if 2 ≤ speed_factor then 2 else speed_factor
  let m := (⌊(samples.length : α) / f⌋).toNat
  (List.range m).map fun j => interpAt samples ((j : α) * (samples.length : α) / (m : α))

/-- `MISSTplayer.modify_pitch` (lines 167-180): clamp the factor to
`[0.5, 2.0]`, then sample the chunk at stride `factor`
(`np.arange(0, len, factor)` has `⌈len / factor⌉` points `j·factor`). -/
def modify_pitch (samples : List α) (pitch_factor : α) : List α :=
  let f := if pitch_factor ≤ 1 / 2 then 1 / 2
           else if 2 ≤ pitch_factor then 2 else pitch_factor
  let m := (⌈(samples.length : α) / f⌉).toNat
  (List.range m).map fun j => interpAt samples ((j : α) * f)

/-- `MISSTplayer.adjust_bass` (lines 197-211): clamp the factor to
`[0, 1]`, low-pass the chunk with the Butterworth coefficients `(bb, ba)`
produced by `butter_lowpass`, then `boosted = samples + factor · (samples
− filtered)`. -/
def adjust_bass (bb ba : List α) (samples : List α) (bass_factor : α) : List α :=
  let f := if bass_factor < 0 then 0 else if bass_factor > 1 then 1 else bass_factor
  let filtered := lfilter bb ba samples
  List.zipWith (fun s fl => s + f * (s - fl)) samples filtered

/-- Truncation toward zero, the C-cast rounding used by
`np.ndarray.astype` when converting floats to integers. -/
def truncToward0 (x : α) : ℤ := if 0 ≤ x then ⌊x⌋ else ⌈x⌉

/-- Two's-complement wraparound into the 16-bit signed range (the
behaviour of the numpy cast for out-of-range values on the supported
platforms). -/
def wrap16 (z : ℤ) : ℤ := (z + 32768) % 65536 - 32768

/-- `astype(np.int16)` on one float sample. -/
def astype_int16 (x : α) : ℤ := wrap16 (truncToward0 x)

/-- `samples.reshape((len // 2, 2)).T.mean(axis=0)`: average interleaved
stereo frames down to mono (pairwise mean). -/
def downmixStereo : List α → List α
  | a :: b :: rest => (a + b) / 2 :: downmixStereo rest
  | _ => []

end DSP

/-- `MISSTplayer.apply_effects` (lines 114-147): convert the int16 chunk to
float, downmix to mono (the `reshape((len // 2, 2))` raises `ValueError`
on an odd sample count — modelled by `none`), chain speed, pitch, reverb
and bass, convert back with `astype(np.int16)` and duplicate each sample
(`np.repeat(samples, 2)`).  If the speed stage shrinks the chunk to zero
samples, `np.interp` in the pitch stage raises on the empty array — also
modelled by `none`; both exceptions are swallowed by `get_data`. -/
noncomputable def apply_effects (bb ba : List ℝ) (d : List ℤ)
    (speed pitch reverb bass : ℝ) : Option (List ℤ) :=
  if d.length % 2 = 0 then
    let mono := downmixStereo (d.map fun z : ℤ => (z : ℝ))
    let s1 := modify_speed mono speed
    if s1.isEmpty then none
    else
      let s2 := modify_pitch s1 pitch
      let s3 := apply_reverb s2 reverb
      let s4 := adjust_bass bb ba s3 bass
      some ((s4.map astype_int16).flatMap fun z => [z, z])
  else none

/-- `exp (2πi · a / n)`: the basic oscillation used by the numpy FFT. -/
noncomputable def cisFrac (n : ℕ) (a : ℤ) : ℂ :=
  Complex.exp (2 * Real.pi * Complex.I * a / n)

/-- Bin `k` of the discrete Fourier transform of the real chunk `x`, with
the numpy sign convention `Σ_j x_j · exp(-2πi·j·k/n)`. -/
noncomputable def dftBin (x : List ℝ) (k : ℤ) : ℂ :=
  ∑ j in Finset.range x.length, (x.getD j 0 : ℂ) * cisFrac x.length (-(j * k))

/-- `np.fft.rfft x`: the first `len x / 2 + 1` DFT bins. -/
noncomputable def rfft (x : List ℝ) : List ℂ :=
  (List.range (x.length / 2 + 1)).map fun k : ℕ => dftBin x (k : ℤ)

/-- `np.fft.irfft X` (default output length `2·(len X − 1)`): extend the
half-spectrum by Hermitian symmetry and apply the inverse DFT, keeping the
real part.  As in numpy, the input is assumed conjugate-even consistent
(true of every use in this file, where `X` is an `rfft` of a real chunk
scaled by real gains). -/
noncomputable def irfft (X : List ℂ) : List ℝ :=
  (List.range (2 * (X.length - 1))).map fun t : ℕ =>
    (((2 * (X.length - 1) : ℕ) : ℂ)⁻¹ *
      ∑ k in Finset.range (2 * (X.length - 1)),
        (if k ≤ 2 * (X.length - 1) / 2 then X.getD k 0
          else (starRingEnd ℂ) (X.getD (2 * (X.length - 1) - k) 0)) *
          cisFrac (2 * (X.length - 1)) ((k : ℤ) * (t : ℤ))).re

def center_freqs : List ℕ := [62, 125, 250, 500, 1000, 2500, 4000, 8000, 16000]

/-- Equalizer response in dB for bin `j` of an `n`-sample chunk: each band
`i` adds its gain to every bin whose frequency `j·44100/n` lies in
`[c_i/√2, c_i·√2]` (`MISSTplayer.apply_eq`, lines 240-252). -/
noncomputable def eqResponse (gains : List ℝ) (n : ℕ) (j : ℕ) : ℝ :=
  ∑ i in Finset.range gains.length,
    if (center_freqs.getD i 0 : ℝ) / Real.sqrt 2 ≤ (j : ℝ) * 44100 / (n : ℝ) ∧
        (j : ℝ) * 44100 / (n : ℝ) ≤ (center_freqs.getD i 0 : ℝ) * Real.sqrt 2 then
      gains.getD i 0
    else 0

/-- `MISSTplayer.apply_eq` (lines 219-262): parse the nine band gains (a
retrieval/parse failure inside `apply_eq` falls back to all-zero gains),
take the real FFT of the chunk, scale bin `j` by `10^(response_j/20)`,
inverse-transform and cast back to int16. -/
noncomputable def apply_eq (bands : Option (List ℚ)) (d : List ℤ) : List ℤ :=
  let gains : List ℝ := match bands with
    | some g => g.map fun q : ℚ => (q : ℝ)
    | none => List.replicate 9 0
  let x : List ℝ := d.map fun z : ℤ => (z : ℝ)
  let X := rfft x
  let X2 := (List.range X.length).map fun j =>
    X.getD j 0 * ((10 : ℝ) ^ (eqResponse gains d.length j / 20) : ℝ)
  (irfft X2).map astype_int16

/-- The effect-chain step of `MISSTplayer.get_data` (lines 73-81): when
effects are enabled, retrieve and parse the four parameters and run
`apply_effects`; any exception — a missing/malformed setting or a failure
inside `apply_effects` — is swallowed by the bare `except`, leaving the
chunk unchanged. -/
noncomputable def effectStage (bb ba : List ℝ) (effects : Bool) (s : Settings)
    (d : List ℤ) : List ℤ :=
  if effects then
    match s.speed, s.pitch, s.reverb, s.bass with
    | some sp, some pt, some rv, some bs =>
      match apply_effects bb ba d (sp : ℝ) (pt : ℝ) (rv : ℝ) (bs : ℝ) with
      | some d2 => d2
      | none => d
    | _, _, _, _ => d
  else d

/-- The equalizer step of `MISSTplayer.get_data` (lines 82-87): query the
`eq` toggle; if that retrieval raises, the `except` skips the stage; if it
yields `true`, run `apply_eq` (whose own band-gain fallback is modelled in
`apply_eq`). -/
noncomputable def eqStage (s : Settings) (d : List ℤ) : List ℤ :=
  match s.eqOn with
  | some true => apply_eq s.bands d
  | _ => d

/-- `MISSTplayer.get_data` (lines 62-88): read one chunk at the stored
position; if it is non-empty, advance the position by the frames read,
apply the volume stage (whose `OverflowError` is *not* caught — modelled
by `none` in the first component), then the effect chain and the
equalizer; an empty chunk is returned as-is with no state change. -/
noncomputable def get_data (bb ba : List ℝ) (s : Settings) (effects : Bool)
    (st : PlayerState) (i : ℕ) : Option (List ℤ) × PlayerState :=
  let data := readChunk (st.files.getD i []) (st.positions.getD i 0)
  if 0 < data.length then
    let st2 := { st with
      positions := st.positions.set i (st.positions.getD i 0 + data.length) }
    match adjust_volume data (st.volumes.getD i 0) with
    | none => (none, st2)
    | some d1 => (some (eqStage s (effectStage bb ba effects s d1)), st2)
  else (some data, st)

/-! ## Theorems -/

/-- C1 (counterexample): the volume stage does not round and does not
clamp.  At sample 3 and volume 0.5 the code truncates `1.5` to `1` while
the claimed `round(sample * volume)` gives `2`; at sample 20000 and volume
2.0 the scaled value 40000 leaves the 16-bit range and the code raises
`OverflowError` (modelled `none`) instead of clamping to 32767. -/
theorem C1_counterexample :
    adjust_volume [3] (1 / 2) = some [1] ∧ adjust_volume_spec [3] (1 / 2) = [2] ∧
    adjust_volume [20000] 2 = none ∧ adjust_volume_spec [20000] 2 = [32767] := by
  refine ⟨?_, ?_, ?_, ?_⟩ <;>
    norm_num [adjust_volume, adjust_volume_spec, pyTrunc, clamp16, int16Min, int16Max,
      round_eq, Int.ceil_neg]

/-- C1 (amended): for every 16-bit input sample and volume, the volume
stage produces `sample' = int(sample * volume)` (truncation toward zero,
not rounding), with no clamping: it succeeds exactly on chunks whose
scaled samples all remain in the 16-bit signed range, and raises
`OverflowError` as soon as one leaves it.  The 4-sample scenario
[100, -100, 100, -100] at volume 0.5 yields [50, -50, 50, -50]
(instantiated in `C1_witness`). -/
theorem C1_amended :
    (∀ (data : List ℤ) (v : ℚ),
        (∀ s ∈ data, int16Min ≤ pyTrunc ((s : ℚ) * v) ∧ pyTrunc ((s : ℚ) * v) ≤ int16Max) →
        adjust_volume data v = some (data.map fun s : ℤ => pyTrunc ((s : ℚ) * v))) ∧
    (∀ (data : List ℤ) (v : ℚ) (s : ℤ), s ∈ data →
        ¬(int16Min ≤ pyTrunc ((s : ℚ) * v) ∧ pyTrunc ((s : ℚ) * v) ≤ int16Max) →
        adjust_volume data v = none) := by
  constructor
  · intro data v h
    induction data with
    | nil => rfl
    | cons a rest ih =>
      have ha := h a (List.mem_cons_self a rest)
      have hr := ih fun s hs => h s (List.mem_cons_of_mem a hs)
      simp only [adjust_volume, hr, if_pos ha, List.map_cons]
  · intro data v s hs hbad
    induction data with
    | nil => simp at hs
    | cons a rest ih =>
      rcases List.mem_cons.mp hs with rfl | hmem
      · simp only [adjust_volume, if_neg hbad]
      · by_cases hc : int16Min ≤ pyTrunc ((a : ℚ) * v) ∧ pyTrunc ((a : ℚ) * v) ≤ int16Max
        · simp only [adjust_volume, ih hmem, if_pos hc]
        · simp only [adjust_volume, if_neg hc]

/-- C1 (witness): the scenario chunk from the specification. -/
theorem C1_witness :
    adjust_volume [100, -100, 100, -100] (1 / 2) = some [50, -50, 50, -50] := by
  rw [C1_amended.1 [100, -100, 100, -100] (1 / 2) ?_]
  · norm_num [pyTrunc, Int.ceil_neg]
  · intro s hs
    fin_cases hs <;> norm_num [pyTrunc, int16Min, int16Max, Int.ceil_neg]

/-- C2 (counterexample): `save` on two tracks of lengths 2 < 3 does not
zero-pad the shorter track; `np.sum(ragged, axis=0)` raises `ValueError`,
so no output is produced at all (claimed: an output of length 3). -/
theorem C2_counterexample :
    save [([1, 2], 44100), ([1, 2, 3], 44100)] [1, 1] = none := by
  simp [save, npSumAxis0]

/-- C2 (amended): for two tracks of EQUAL length, `save` produces the
sample-wise mix `v1*track1 + v2*track2` at the sample rate of the first
loaded track; tracks of different lengths make `np.sum(..., axis=0)`
raise, so no output is written. -/
theorem C2_amended (t1 t2 : List ℚ) (r1 r2 : ℕ) (v1 v2 : ℚ)
    (h : t1.length = t2.length) :
    save [(t1, r1), (t2, r2)] [v1, v2] =
      some (List.zipWith (fun a b => a * v1 + b * v2) t1 t2, r1) := by
  have hz : ∀ (l1 l2 : List ℚ),
      List.zipWith (· + ·) (l1.map (· * v1)) (l2.map (· * v2)) =
        List.zipWith (fun a b => a * v1 + b * v2) l1 l2 := by
    intro l1
    induction l1 with
    | nil => intro l2; simp
    | cons a as ihh =>
      intro l2
      cases l2 with
      | nil => simp
      | cons b bs => simp [ihh bs]
  simp only [save, npSumAxis0, List.map_cons, List.map_nil, List.zipWith_cons_cons,
    List.zipWith_nil_right, List.all_cons, List.all_nil, List.length_map,
    List.foldl_cons, List.foldl_nil, List.head?_cons]
  rw [if_pos (by simp [h])]
  rw [hz t1 t2]

/-- C2 (witness): a concrete equal-length mixdown. -/
theorem C2_witness :
    save [([1, 2], 44100), ([3, 4], 48000)] [2, 3] = some ([11, 16], 44100) := by
  rw [C2_amended [1, 2] [3, 4] 44100 48000 2 3 rfl]
  norm_num

/-- C3 (counterexample): streaming across tracks is NOT independent within
a cycle: with chunk results `[[], [5]]`, track 1 still has audio but the
`break` at track 0's empty chunk ends the whole `for` loop, so track 1 is
not driven that cycle. -/
theorem C3_counterexample :
    ¬ ∀ (chunks : List (List ℤ)) (i : ℕ), i < chunks.length →
        chunks.getD i [] ≠ [] → i < (playCycle chunks).length := by
  intro h
  exact absurd (h [[], [5]] 1 (by decide) (by decide)) (by decide)

/-- C3 (amended): in a streaming cycle the tracks are driven in index
order only up to (and excluding) the first track whose chunk read comes
back empty: track `i` is driven in the cycle iff every track `j ≤ i`
produced a non-empty chunk, and a driven track receives exactly its own
chunk.  All tracks at or after the first empty chunk are skipped for that
cycle, even if they still have audio. -/
theorem C3_amended (chunks : List (List ℤ)) (i : ℕ) (hi : i < chunks.length) :
    (i < (playCycle chunks).length ↔ ∀ j ≤ i, chunks.getD j [] ≠ []) ∧
    (i < (playCycle chunks).length → (playCycle chunks).getD i [] = chunks.getD i []) := by
  induction chunks generalizing i with
  | nil => simp at hi
  | cons c rest ih =>
    by_cases hcnil : c = []
    · have hplay : playCycle (c :: rest) = [] := by
        simp [playCycle, hcnil]
      rw [hplay]
      constructor
      · simp only [List.length_nil]
        constructor
        · intro h; exact absurd h (Nat.not_lt_zero i)
        · intro h
          exact (by simpa [hcnil] using h 0 (Nat.zero_le i) : False).elim
      · simp only [List.length_nil]
        intro h; exact absurd h (Nat.not_lt_zero i)
    · have hplay : playCycle (c :: rest) = c :: playCycle rest := by
        simp [playCycle, hcnil]
      rw [hplay]
      cases i with
      | zero =>
        constructor
        · constructor
          · intro _ j hj
            interval_cases j
            simpa using hcnil
          · intro _; exact Nat.succ_pos _
        · intro _; simp
      | succ k =>
        have hk : k < rest.length := by simpa using hi
        obtain ⟨ih1, ih2⟩ := ih k hk
        constructor
        · simp only [List.length_cons, Nat.succ_lt_succ_iff]
          rw [ih1]
          constructor
          · intro h j hj
            cases j with
            | zero => simpa using hcnil
            | succ m => simpa using h m (Nat.le_of_succ_le_succ hj)
          · intro h j hj
            simpa using h (j + 1) (Nat.succ_le_succ hj)
        · intro h
          have hlt : k < (playCycle rest).length := by
            simpa [Nat.succ_lt_succ_iff] using h
          simpa using ih2 hlt

/-- C3 (witness): with both chunks non-empty, track 1 is driven. -/
theorem C3_witness : 1 < (playCycle [[1], [2]]).length :=
  (C3_amended [[1], [2]] 1 (by decide)).1.mpr (by decide)

/-- C4 (counterexample): at a fresh start (`__init__` sets
`self.paused = False` and starts no thread), `resume()` takes the
`if self.paused:` branch negatively and does NOT spawn the streaming loop,
contradicting the claim that a fresh-start `resume()` results in an active
streaming loop. -/
theorem C4_counterexample : (resume freshCtl).loopActive = false := by decide

/-- C4 (amended): `resume()` spawns the streaming loop exactly when the
engine is paused: from the Paused state it clears the flag and starts the
loop; from any non-paused state — including a fresh, never-played start —
it is a no-op. -/
theorem C4_amended (st : EngineCtl) :
    (st.paused = true → resume st = ⟨false, true⟩) ∧
    (st.paused = false → resume st = st) := by
  constructor <;> intro h <;> simp [resume, h]

/-- C4 (witness): resuming from Paused activates the loop. -/
theorem C4_witness : resume ⟨true, false⟩ = ⟨false, true⟩ :=
  (C4_amended ⟨true, false⟩).1 rfl

/-- C8: the stored position of a track never decreases across a `get_data`
call, `change_files` resets every track's position to 0, and an explicit
seek (`set_position`) to 0 resets it to 0. -/
theorem C8_theorem :
    (∀ (bb ba : List ℝ) (s : Settings) (effects : Bool) (st : PlayerState) (i : ℕ),
        st.positions.getD i 0 ≤ ((get_data bb ba s effects st i).2).positions.getD i 0) ∧
    (∀ (st : PlayerState) (fs : List (List ℤ)) (vs : List ℚ) (i : ℕ),
        (change_files st fs vs).positions.getD i 0 = 0) ∧
    (∀ (st : PlayerState) (i : ℕ), i < st.positions.length →
        (set_position st i 0).positions.getD i 0 = 0) := by
  refine ⟨?_, ?_, ?_⟩
  · intro bb ba s effects st i
    unfold get_data
    by_cases h : 0 < (readChunk (st.files.getD i []) (st.positions.getD i 0)).length
    · rw [if_pos h]
      by_cases hi : i < st.positions.length
      · have : ((st.positions.set i (st.positions.getD i 0 +
            (readChunk (st.files.getD i []) (st.positions.getD i 0)).length))).getD i 0 =
            st.positions.getD i 0 +
              (readChunk (st.files.getD i []) (st.positions.getD i 0)).length := by
          simp [List.getD_eq_getElem?_getD, List.getElem?_set_eq_of_lt _ hi]
        cases hv : adjust_volume (readChunk (st.files.getD i []) (st.positions.getD i 0))
            (st.volumes.getD i 0) <;>
          simp only [hv] <;> rw [this] <;> exact Nat.le_add_right _ _
      · have hset2 : st.positions.set i (st.positions.getD i 0 +
            (readChunk (st.files.getD i []) (st.positions.getD i 0)).length) =
            st.positions := List.set_eq_of_length_le (Nat.le_of_not_lt hi)
        cases hv : adjust_volume (readChunk (st.files.getD i []) (st.positions.getD i 0))
            (st.volumes.getD i 0) <;> simp only [hv, hset2] <;> exact Nat.le_refl _
    · rw [if_neg h]
  · intro st fs vs i
    simp only [change_files]
    rw [List.getD_eq_getElem?_getD, List.getElem?_replicate]
    split <;> rfl
  · intro st i hi
    simp [set_position, List.getD_eq_getElem?_getD, List.getElem?_set_eq_of_lt _ hi]

/-- C8 (witness): seeking track 0 of a concrete player to 0. -/
theorem C8_witness :
    (set_position ⟨[[1, 2, 3]], [2], [1], false⟩ 0 0).positions.getD 0 0 = 0 :=
  C8_theorem.2.2 ⟨[[1, 2, 3]], [2], [1], false⟩ 0 (by decide)

/-- C9 (counterexample): `set_position` stores the requested position
without clamping: seeking a 3-frame track to frame 100 leaves the stored
position at 100, exceeding the track's total frame count. -/
theorem C9_counterexample :
    ¬ posInvariant (set_position ⟨[[1, 2, 3]], [0], [1], false⟩ 0 100) := by
  intro h
  exact absurd (h 0 (by decide)) (by decide)

/-- C9 (amended): `get_data` and `change_files` do preserve (respectively
establish) the invariant that no position exceeds its track's frame
count, but `set_position` stores an arbitrary caller-supplied value with
no clamping, so the invariant does not survive every player operation. -/
theorem C9_amended :
    (∀ (bb ba : List ℝ) (s : Settings) (effects : Bool) (st : PlayerState) (i : ℕ),
        posInvariant st → posInvariant ((get_data bb ba s effects st i).2)) ∧
    (∀ (st : PlayerState) (fs : List (List ℤ)) (vs : List ℚ),
        posInvariant (change_files st fs vs)) := by
  constructor
  · intro bb ba s effects st i hinv
    unfold get_data
    by_cases h : 0 < (readChunk (st.files.getD i []) (st.positions.getD i 0)).length
    · rw [if_pos h]
      have goal2 : posInvariant { st with
          positions := st.positions.set i (st.positions.getD i 0 +
            (readChunk (st.files.getD i []) (st.positions.getD i 0)).length) } := by
        intro j hj
        dsimp only at hj ⊢
        by_cases hij : i = j
        · subst hij
          by_cases hi : i < st.positions.length
          · have hrw : (st.positions.set i (st.positions.getD i 0 +
                (readChunk (st.files.getD i []) (st.positions.getD i 0)).length)).getD i 0 =
                st.positions.getD i 0 +
                  (readChunk (st.files.getD i []) (st.positions.getD i 0)).length := by
              simp [List.getD_eq_getElem?_getD, List.getElem?_set_eq_of_lt _ hi]
            have hlen : (readChunk (st.files.getD i []) (st.positions.getD i 0)).length =
                min chunk_size ((st.files.getD i []).length - st.positions.getD i 0) := by
              simp [readChunk]
            have hpos := hinv i hj
            rw [hrw, hlen]
            omega
          · rw [List.set_eq_of_length_le (Nat.le_of_not_lt hi)]
            exact hinv i hj
        · rw [List.getD_eq_getElem?_getD, List.getElem?_set_ne hij,
            ← List.getD_eq_getElem?_getD]
          exact hinv j hj
      cases hv : adjust_volume (readChunk (st.files.getD i []) (st.positions.getD i 0))
          (st.volumes.getD i 0) <;> simpa only [hv] using goal2
    · rw [if_neg h]; exact hinv
  · intro st fs vs j hj
    simp only [change_files]
    rw [List.getD_eq_getElem?_getD, List.getElem?_replicate]
    split <;> simp

/-- C9 (witness): `get_data` on a concrete in-invariant player keeps the
invariant. -/
theorem C9_witness :
    posInvariant ((get_data [] [] ⟨none, none, none, none, none, none⟩ false
      ⟨[[1, 2]], [0], [1], false⟩ 0).2) :=
  C9_amended.1 [] [] ⟨none, none, none, none, none, none⟩ false
    ⟨[[1, 2]], [0], [1], false⟩ 0 (by decide)

/-- C10: when a track's read position is at or past end-of-file, the chunk
read comes back empty and `get_data` returns it unchanged: the position is
not advanced, the state is untouched, and neither the volume stage nor the
effect chain nor the equalizer runs. -/
theorem C10_theorem (bb ba : List ℝ) (s : Settings) (effects : Bool)
    (st : PlayerState) (i : ℕ)
    (h : (st.files.getD i []).length ≤ st.positions.getD i 0) :
    get_data bb ba s effects st i = (some [], st) := by
  have hempty : readChunk (st.files.getD i []) (st.positions.getD i 0) = [] := by
    simp only [readChunk]
    rw [List.drop_eq_nil_of_le h]
    rfl
  simp only [get_data]
  rw [hempty]
  simp

/-- Helper: the convolution accumulator over all-zero coefficients
vanishes. -/
theorem dotRev_replicate_zero {α : Type} [LinearOrderedField α] (m : ℕ) (x : List α)
    (n : ℕ) : dotRev (List.replicate m (0 : α)) x n = 0 := by
  induction m generalizing n with
  | zero => rfl
  | succ k ih =>
    simp only [List.replicate_succ, dotRev, zero_mul, zero_add]
    split
    · rfl
    · exact ih (n - 1)

/-- Helper: the feedback accumulator over the single coefficient 0
vanishes. -/
theorem dotProd_zero_single {α : Type} [LinearOrderedField α] (prev : List α) :
    dotProd [(0 : α)] prev = 0 := by
  cases prev <;> simp [dotProd]

/-- Helper: the feedback filter `lfilter [1] [1, 0]` (the reverb IIR at
factor 0) is the identity, sample by sample. -/
theorem lfilterAux_one_zero {α : Type} [LinearOrderedField α] (x : List α) (n : ℕ)
    (hn : n ≤ x.length) : lfilterAux [1] [(1 : α), 0] x n = (x.take n).reverse := by
  induction n with
  | zero => simp [lfilterAux]
  | succ k ih =>
    have hk : k < x.length := hn
    have hd : dotRev [(1 : α)] x k = x.getD k 0 := by
      simp [dotRev]
    have hx : x[k]? = some (x.getD k 0) := by
      rw [List.getElem?_eq_getElem hk, List.getD_eq_getElem?_getD,
        List.getElem?_eq_getElem hk]
      rfl
    simp only [lfilterAux, ih (Nat.le_of_succ_le hn), hd, dotProd_zero_single,
      List.tail_cons, sub_zero, List.getD_cons_zero, div_one, List.take_succ, hx,
      Option.toList_some, List.reverse_append, List.reverse_cons, List.reverse_nil,
      List.nil_append, List.singleton_append]

/-- Helper: an FIR filter whose coefficients are the unit impulse
(`1` followed by zeros — the reverb decay envelope at factor 0 for chunks
of length at least 2) is the identity, sample by sample. -/
theorem lfilterAux_fir_delta {α : Type} [LinearOrderedField α] (m : ℕ) (x : List α)
    (n : ℕ) (hn : n ≤ x.length) :
    lfilterAux (1 :: List.replicate m (0 : α)) [1] x n = (x.take n).reverse := by
  induction n with
  | zero => simp [lfilterAux]
  | succ k ih =>
    have hk : k < x.length := hn
    have hd : dotRev (1 :: List.replicate m (0 : α)) x k = x.getD k 0 := by
      simp only [dotRev, one_mul, dotRev_replicate_zero]
      split <;> ring
    have hx : x[k]? = some (x.getD k 0) := by
      rw [List.getElem?_eq_getElem hk, List.getD_eq_getElem?_getD,
        List.getElem?_eq_getElem hk]
      rfl
    simp only [lfilterAux, ih (Nat.le_of_succ_le hn), hd, List.tail_cons, dotProd,
      sub_zero, List.getD_cons_zero, div_one, List.take_succ, hx, Option.toList_some,
      List.reverse_append, List.reverse_cons, List.reverse_nil, List.nil_append,
      List.singleton_append]

/-- Helper: full-length identity for the factor-0 feedback filter. -/
theorem lfilter_one_zero {α : Type} [LinearOrderedField α] (x : List α) :
    lfilter [1] [(1 : α), 0] x = x := by
  rw [lfilter, lfilterAux_one_zero x x.length le_rfl, List.take_length,
    List.reverse_reverse]

/-- Helper: full-length identity for the unit-impulse FIR filter. -/
theorem lfilter_fir_delta {α : Type} [LinearOrderedField α] (m : ℕ) (x : List α) :
    lfilter (1 :: List.replicate m (0 : α)) [1] x = x := by
  rw [lfilter, lfilterAux_fir_delta m x x.length le_rfl, List.take_length,
    List.reverse_reverse]

/-- Helper: setting any entry of an all-zero list to 0 changes nothing. -/
theorem replicate_zero_set {α : Type} [LinearOrderedField α] (k j : ℕ) :
    (List.replicate k (0 : α)).set j 0 = List.replicate k 0 := by
  induction k generalizing j with
  | zero => rfl
  | succ k2 ih =>
    cases j with
    | zero => simp [List.replicate_succ]
    | succ j2 => simp [List.replicate_succ, ih j2]

/-- Helper: for a chunk of length at least 2, the reverb decay envelope at
factor 0 is the unit impulse `1 :: 0 :: ... :: 0`. -/
theorem decay_zero {α : Type} [LinearOrderedField α] (n : ℕ) (hn : 2 ≤ n) :
    ((List.replicate n (0 : α)).set 0 1).set (n - 1) 0 =
      1 :: List.replicate (n - 1) (0 : α) := by
  obtain ⟨m, rfl⟩ : ∃ m, n = m + 2 := ⟨n - 2, by omega⟩
  simp only [List.replicate_succ, List.set_cons_zero, Nat.add_sub_cancel]
  have : (m + 2 - 1) = m + 1 := by omega
  rw [this]
  show (1 : α) :: (List.replicate (m + 1) (0 : α)).set m 0 = _
  rw [replicate_zero_set]

/-- C5 (counterexample): on a 1-sample chunk, `apply_reverb` with factor
0.0 is NOT the identity: `decay[-1] = 0.0` overwrites `decay[0] = 1.0`, so
the decay envelope is all zeros and the output is the zero chunk `[0]`
rather than the input `[1]`. -/
theorem C5_counterexample : apply_reverb [(1 : ℝ)] 0 = [0] := by
  have h0 : (if (0 : ℝ) < 0 then (0 : ℝ) else if (0 : ℝ) > 1 then (1 : ℝ) else 0) = 0 := by
    norm_num
  simp only [apply_reverb, h0, neg_zero, List.length_cons, List.length_nil]
  norm_num [lfilter, lfilterAux, dotRev, dotProd]

/-- C5 (amended): for every chunk of at least 2 mono float samples,
`apply_reverb` with reverb factor 0.0 is the identity: the feedback
coefficient degenerates to `y[n] = x[n]` and the decay envelope to the
unit impulse.  (On a 1-sample chunk the envelope assignments collide and
the output is zeroed; on an empty chunk the code raises `IndexError`.) -/
theorem C5_amended (samples : List ℝ) (h2 : 2 ≤ samples.length) :
    apply_reverb samples 0 = samples := by
  have h0 : (if (0 : ℝ) < 0 then (0 : ℝ) else if (0 : ℝ) > 1 then (1 : ℝ) else 0) = 0 := by
    norm_num
  simp only [apply_reverb, h0, neg_zero]
  rw [decay_zero samples.length h2, lfilter_one_zero, lfilter_fir_delta]

/-- C5 (witness): factor-0 reverb leaves a concrete 2-sample chunk
unchanged. -/
theorem C5_witness : apply_reverb [(1 : ℝ), 2] 0 = [1, 2] :=
  C5_amended [1, 2] (by simp)

/-- Helper: the unfolded form of `cisFrac`. -/
theorem cisFrac_def (n : ℕ) (a : ℤ) :
    cisFrac n a =
      Complex.exp (2 * (Real.pi : ℂ) * Complex.I * (a : ℂ) / (n : ℂ)) := rfl

/-- Helper: `cisFrac` turns addition into multiplication. -/
theorem cisFrac_add (n : ℕ) (a b : ℤ) :
    cisFrac n (a + b) = cisFrac n a * cisFrac n b := by
  rw [cisFrac_def, cisFrac_def, cisFrac_def, ← Complex.exp_add]
  congr 1
  push_cast
  ring

/-- Helper: a full number of turns is the identity. -/
theorem cisFrac_mul_self (n : ℕ) (m : ℤ) : cisFrac n ((n : ℤ) * m) = 1 := by
  rw [cisFrac_def]
  by_cases hn : (n : ℂ) = 0
  · rw [show ((((n : ℤ) * m : ℤ) : ℂ)) = (n : ℂ) * (m : ℂ) by push_cast; ring, hn]
    simp
  · rw [show 2 * (Real.pi : ℂ) * Complex.I * (((n : ℤ) * m : ℤ) : ℂ) / (n : ℂ) =
        (m : ℂ) * (2 * (Real.pi : ℂ) * Complex.I) by
      push_cast
      field_simp
      ring]
    exact Complex.exp_int_mul_two_pi_mul_I m

/-- Helper: `cisFrac n 0 = 1`. -/
theorem cisFrac_zero (n : ℕ) : cisFrac n 0 = 1 := by
  rw [cisFrac_def]
  simp

/-- Helper: `cisFrac` of a natural multiple is a power. -/
theorem cisFrac_pow (n : ℕ) (d : ℤ) (k : ℕ) :
    cisFrac n ((k : ℤ) * d) = cisFrac n d ^ k := by
  induction k with
  | zero => simpa using cisFrac_zero n
  | succ j ih =>
    rw [show ((j + 1 : ℕ) : ℤ) * d = (j : ℤ) * d + d by push_cast; ring,
      cisFrac_add, ih, pow_succ]

/-- Helper: geometric-sum orthogonality of the DFT kernel:
`Σ_{k<n} e^(2πi·k·d/n)` is `n` when `n ∣ d` and `0` otherwise. -/
theorem cisFrac_geom_sum (n : ℕ) (hn : 0 < n) (d : ℤ) :
    ∑ k in Finset.range n, cisFrac n ((k : ℤ) * d) =
      if (n : ℤ) ∣ d then (n : ℂ) else 0 := by
  by_cases hdvd : (n : ℤ) ∣ d
  · obtain ⟨m, rfl⟩ := hdvd
    rw [if_pos ⟨m, rfl⟩]
    rw [Finset.sum_congr rfl fun k _ => by
      rw [show (k : ℤ) * ((n : ℤ) * m) = (n : ℤ) * ((k : ℤ) * m) by ring,
        cisFrac_mul_self]]
    simp
  · rw [if_neg hdvd]
    have hne : (n : ℂ) ≠ 0 := Nat.cast_ne_zero.mpr hn.ne'
    have hz : cisFrac n d ≠ 1 := by
      intro h1
      rw [cisFrac_def] at h1
      obtain ⟨m, hm⟩ := Complex.exp_eq_one_iff.mp h1
      apply hdvd
      rw [div_eq_iff hne] at hm
      have h3 : 2 * (Real.pi : ℂ) * Complex.I * (d : ℂ) =
          2 * (Real.pi : ℂ) * Complex.I * ((m : ℂ) * (n : ℂ)) := by
        linear_combination hm
      have h4 : (d : ℂ) = (m : ℂ) * (n : ℂ) :=
        mul_left_cancel₀ Complex.two_pi_I_ne_zero h3
      have h5 : d = m * n := by exact_mod_cast h4
      exact ⟨m, by rw [h5]; ring⟩
    rw [Finset.sum_congr rfl fun k _ => cisFrac_pow n d k, geom_sum_eq hz]
    have hzn : cisFrac n d ^ n = 1 := by
      rw [← cisFrac_pow, cisFrac_mul_self]
    rw [hzn, sub_self, zero_div]

/-- Helper: complex conjugation negates the phase. -/
theorem cisFrac_conj (n : ℕ) (a : ℤ) :
    (starRingEnd ℂ) (cisFrac n a) = cisFrac n (-a) := by
  rw [cisFrac_def, cisFrac_def, ← Complex.exp_conj]
  congr 1
  simp only [map_div₀, map_mul, Complex.conj_I, Complex.conj_ofReal, map_intCast,
    map_natCast, map_ofNat]
  push_cast
  ring

/-- Helper: for a real chunk the DFT is conjugate-even:
`conj (X_k) = X_(n-k)`. -/
theorem dftBin_conj (x : List ℝ) (k : ℤ) :
    (starRingEnd ℂ) (dftBin x k) = dftBin x ((x.length : ℤ) - k) := by
  rw [dftBin, dftBin, map_sum]
  apply Finset.sum_congr rfl
  intro j hj
  have hjn : 0 < x.length := lt_of_le_of_lt (Nat.zero_le j) (Finset.mem_range.mp hj)
  rw [map_mul, Complex.conj_ofReal, cisFrac_conj, neg_neg]
  congr 1
  rw [show -((j : ℤ) * ((x.length : ℤ) - k)) =
      (j : ℤ) * k + (x.length : ℤ) * (-(j : ℤ)) from by ring,
    cisFrac_add, cisFrac_mul_self, mul_one]

/-- Helper: indexing a mapped range. -/
theorem getD_map_range {β : Type} (f : ℕ → β) (m k : ℕ) (hk : k < m) (d : β) :
    ((List.range m).map f).getD k d = f k := by
  rw [List.getD_eq_getElem?_getD, List.getElem?_map, List.getElem?_range hk]
  rfl

/-- Helper: mapping `getD` over the index range rebuilds the list. -/
theorem map_range_getD {β : Type} (l : List β) (d : β) :
    (List.range l.length).map (fun j => l.getD j d) = l := by
  apply List.ext_getElem
  · simp
  · intro i h1 h2
    simp [List.getD_eq_getElem?_getD, List.getElem?_eq_getElem h2]

/-- Helper: inverse-DFT formula: averaging the spectrum against the
forward kernel recovers each sample of the chunk. -/
theorem dft_inversion (x : List ℝ) (t : ℕ) (ht : t < x.length) :
    (x.length : ℂ)⁻¹ * ∑ k in Finset.range x.length,
        dftBin x (k : ℤ) * cisFrac x.length ((k : ℤ) * (t : ℤ)) =
      ((x.getD t 0 : ℝ) : ℂ) := by
  have hn : 0 < x.length := lt_of_le_of_lt (Nat.zero_le t) ht
  have hne : (x.length : ℂ) ≠ 0 := Nat.cast_ne_zero.mpr hn.ne'
  have hstep1 : ∀ k ∈ Finset.range x.length,
      dftBin x (k : ℤ) * cisFrac x.length ((k : ℤ) * (t : ℤ)) =
        ∑ j in Finset.range x.length,
          (x.getD j 0 : ℂ) * cisFrac x.length ((k : ℤ) * ((t : ℤ) - (j : ℤ))) := by
    intro k _
    rw [dftBin, Finset.sum_mul]
    apply Finset.sum_congr rfl
    intro j _
    rw [mul_assoc, ← cisFrac_add]
    congr 2
    ring
  rw [Finset.sum_congr rfl hstep1, Finset.sum_comm]
  have hstep2 : ∀ j ∈ Finset.range x.length,
      (∑ k in Finset.range x.length,
        (x.getD j 0 : ℂ) * cisFrac x.length ((k : ℤ) * ((t : ℤ) - (j : ℤ)))) =
        (x.getD j 0 : ℂ) *
          (if (x.length : ℤ) ∣ ((t : ℤ) - (j : ℤ)) then (x.length : ℂ) else 0) := by
    intro j _
    rw [← Finset.mul_sum, cisFrac_geom_sum x.length hn ((t : ℤ) - (j : ℤ))]
  rw [Finset.sum_congr rfl hstep2]
  rw [Finset.sum_eq_single t]
  · rw [if_pos (by simp)]
    field_simp
  · intro j hj hjt
    rw [if_neg, mul_zero]
    intro hdvd
    have hj2 : (j : ℤ) < (x.length : ℤ) := by
      exact_mod_cast Finset.mem_range.mp hj
    have ht2 : (t : ℤ) < (x.length : ℤ) := by exact_mod_cast ht
    have habs : |(t : ℤ) - (j : ℤ)| < (x.length : ℤ) := by
      rw [abs_lt]
      constructor <;> omega
    have := Int.eq_zero_of_abs_lt_dvd hdvd habs
    have : t = j := by omega
    exact hjt (this ▸ rfl)
  · intro habs
    exact absurd (Finset.mem_range.mpr ht) habs

/-- Helper: the `rfft` half-spectrum has `n/2 + 1` bins. -/
theorem rfft_length (x : List ℝ) : (rfft x).length = x.length / 2 + 1 := by
  simp [rfft]

/-- The central equalizer fact: for a chunk with an even, positive number
of samples, `np.fft.irfft` inverts `np.fft.rfft` exactly (the Hermitian
extension of the half-spectrum is the full spectrum, and the inverse DFT
of the forward DFT is the identity). -/
theorem irfft_rfft (x : List ℝ) (hpos : 0 < x.length)
    (heven : x.length % 2 = 0) : irfft (rfft x) = x := by
  have hn : 2 * ((rfft x).length - 1) = x.length := by
    rw [rfft_length]
    omega
  rw [irfft, hn]
  have hext : ∀ k, k < x.length →
      (if k ≤ x.length / 2 then (rfft x).getD k 0
        else (starRingEnd ℂ) ((rfft x).getD (x.length - k) 0)) = dftBin x (k : ℤ) := by
    intro k hk
    by_cases hhalf : k ≤ x.length / 2
    · rw [if_pos hhalf, rfft, getD_map_range _ _ _ (by omega)]
    · rw [if_neg hhalf, rfft, getD_map_range _ _ _ (by omega), dftBin_conj]
      congr 1
      have hkle : k ≤ x.length := hk.le
      push_cast [Nat.cast_sub hkle]
      ring
  apply List.ext_getElem
  · simp
  · intro t h1 h2
    have ht : t < x.length := h2
    simp only [List.getElem_map, List.getElem_range]
    rw [Finset.sum_congr rfl fun (k : ℕ) hk =>
      congrArg (· * cisFrac x.length ((k : ℤ) * (t : ℤ)))
        (hext k (Finset.mem_range.mp hk))]
    rw [dft_inversion x t ht, Complex.ofReal_re]
    rw [List.getD_eq_getElem?_getD, List.getElem?_eq_getElem ht]
    rfl

/-- Helper: every entry of an all-zero gain list reads as 0. -/
theorem getD_replicate_zero (k i : ℕ) : (List.replicate k (0 : ℝ)).getD i 0 = 0 := by
  induction k generalizing i with
  | zero => rfl
  | succ k2 ih => cases i <;> simp [List.replicate_succ, ih]

/-- Helper: with all nine band gains at 0 dB the equalizer response is
0 dB in every bin. -/
theorem eqResponse_zero (n j : ℕ) :
    eqResponse (List.replicate 9 (0 : ℝ)) n j = 0 := by
  rw [eqResponse]
  apply Finset.sum_eq_zero
  intro i _
  rw [getD_replicate_zero]
  exact ite_self 0

/-- Helper: the numpy int16 cast is the identity on genuinely 16-bit
integer-valued samples. -/
theorem astype_int16_intCast (z : ℤ) (h1 : int16Min ≤ z) (h2 : z ≤ int16Max) :
    astype_int16 ((z : ℝ)) = z := by
  rw [int16Min] at h1
  rw [int16Max] at h2
  have htr : truncToward0 ((z : ℝ)) = z := by
    rw [truncToward0]
    split
    · exact Int.floor_intCast z
    · exact Int.ceil_intCast z
  rw [astype_int16, htr, wrap16, Int.emod_eq_of_lt (by omega) (by omega)]
  omega

/-- Helper: the equalizer always emits `2 * (n / 2)` samples for an
`n`-sample chunk — the `irfft(rfft(x))` round trip drops the last sample
of an odd-length chunk. -/
theorem apply_eq_length (bands : Option (List ℚ)) (d : List ℤ) :
    (apply_eq bands d).length = 2 * (d.length / 2) := by
  simp [apply_eq, irfft, rfft]

/-- C6 (counterexample): on an odd-length chunk the equalizer does NOT
preserve the chunk's sample count even with all 9 gains at 0 dB: a
3-sample chunk comes back with 2 samples (`irfft` reconstructs
`2·(⌊3/2⌋+1−1) = 2` samples). -/
theorem C6_counterexample :
    (apply_eq (some (List.replicate 9 0)) [(1 : ℤ), 2, 3]).length ≠
      ([(1 : ℤ), 2, 3]).length := by
  rw [apply_eq_length]
  decide

/-- C6 (amended): for every chunk with an even, positive number of 16-bit
samples, `apply_eq` with all 9 band gains at 0 dB is the identity (exact
in real arithmetic: the per-bin linear gain is `10^0 = 1` and the
`rfft`/`irfft` round trip reconstructs the chunk, so sample count and
values are preserved).  Odd-length chunks lose their final sample. -/
theorem C6_amended (d : List ℤ) (hpos : 0 < d.length) (heven : d.length % 2 = 0)
    (hrange : ∀ z ∈ d, int16Min ≤ z ∧ z ≤ int16Max) :
    apply_eq (some (List.replicate 9 0)) d = d := by
  rw [apply_eq]
  have hg : (List.replicate 9 (0 : ℚ)).map (fun q : ℚ => (q : ℝ)) =
      List.replicate 9 (0 : ℝ) := by simp
  rw [hg]
  have hX2 : (List.range (rfft (d.map fun z : ℤ => (z : ℝ))).length).map
      (fun j => (rfft (d.map fun z : ℤ => (z : ℝ))).getD j 0 *
        (((10 : ℝ) ^ (eqResponse (List.replicate 9 (0 : ℝ)) d.length j / 20) : ℝ) : ℂ)) =
      rfft (d.map fun z : ℤ => (z : ℝ)) := by
    have h1 : ∀ j ∈ List.range (rfft (d.map fun z : ℤ => (z : ℝ))).length,
        (rfft (d.map fun z : ℤ => (z : ℝ))).getD j 0 *
            (((10 : ℝ) ^ (eqResponse (List.replicate 9 (0 : ℝ)) d.length j / 20) : ℝ) : ℂ) =
          (rfft (d.map fun z : ℤ => (z : ℝ))).getD j 0 := by
      intro j _
      rw [eqResponse_zero, zero_div, Real.rpow_zero, Complex.ofReal_one, mul_one]
    rw [List.map_congr_left h1, map_range_getD]
  rw [hX2]
  rw [irfft_rfft (d.map fun z : ℤ => (z : ℝ)) (by simpa using hpos)
    (by simpa using heven)]
  rw [List.map_map]
  have h2 : ∀ z ∈ d, (astype_int16 ∘ fun z : ℤ => (z : ℝ)) z = id z := by
    intro z hz
    exact astype_int16_intCast z (hrange z hz).1 (hrange z hz).2
  rw [List.map_congr_left h2, List.map_id]

/-- C6 (witness): a concrete even-length chunk passes through the 0 dB
equalizer unchanged. -/
theorem C6_witness : apply_eq (some (List.replicate 9 0)) [(1 : ℤ), 2] = [1, 2] :=
  C6_amended [1, 2] (by decide) (by decide) (by decide)

/-- Helper: at volume 1 the per-sample truncation is the identity. -/
theorem pyTrunc_intCast_mul_one (z : ℤ) : pyTrunc ((z : ℚ) * 1) = z := by
  rw [mul_one, pyTrunc]
  split
  · exact Int.floor_intCast z
  · exact Int.ceil_intCast z

/-- C7 (counterexample): a failure to retrieve the nine band gains does
NOT skip the equalizer stage: `apply_eq` catches the failure internally,
substitutes all-zero gains, and still runs the FFT round trip.  With the
`eq` toggle readable as true, band gains unreadable, effects disabled and
an odd 3-sample chunk at volume 1, `get_data` emits a 2-sample chunk
instead of the unchanged 3-sample chunk a skipped stage would give. -/
theorem C7_counterexample :
    (((get_data [] [] ⟨some 1, some 1, some 1, some 1, some true, none⟩ false
        ⟨[[1, 2, 3]], [0], [1], false⟩ 0).1).getD []).length = 2 := by
  have hrc : readChunk [1, 2, 3] 0 = [1, 2, 3] := by
    rw [readChunk, List.drop_zero, List.take_of_length_le (by norm_num [chunk_size])]
  have hav : adjust_volume [1, 2, 3] 1 = some [1, 2, 3] := by
    simp only [adjust_volume, pyTrunc_intCast_mul_one]
    norm_num [int16Min, int16Max]
  simp only [get_data, List.getD_cons_zero, hrc, hav, List.length_cons, List.length_nil,
    Nat.lt_add_one, if_pos, effectStage, Bool.false_eq_true, if_false, eqStage]
  rw [if_pos (by norm_num)]
  norm_num [apply_eq_length]

/-- C7 (amended): a failure to retrieve or parse any of the four effect
parameters (speed, pitch, reverb, bass) makes the chunk bypass the entire
effect chain silently; a failure on the `eq` enable flag makes the EQ
stage be skipped; but a failure on the band gains does NOT skip the EQ
stage — `apply_eq` still runs with all-zero gains (which changes
odd-length chunks).  In all cases the failure is absorbed inside
`get_data` and never aborts the streaming loop. -/
theorem C7_amended :
    (∀ (bb ba : List ℝ) (s : Settings) (eff : Bool) (d : List ℤ),
        s.speed = none ∨ s.pitch = none ∨ s.reverb = none ∨ s.bass = none →
        effectStage bb ba eff s d = d) ∧
    (∀ (s : Settings) (d : List ℤ), s.eqOn = none → eqStage s d = d) ∧
    (∀ (s : Settings) (d : List ℤ), s.eqOn = some true → s.bands = none →
        eqStage s d = apply_eq none d) := by
  refine ⟨?_, ?_, ?_⟩
  · intro bb ba s eff d h
    cases eff with
    | false => rfl
    | true =>
      cases hsp : s.speed <;> cases hpt : s.pitch <;> cases hrv : s.reverb <;>
        cases hbs : s.bass <;> simp_all [effectStage]
  · intro s d h
    simp [eqStage, h]
  · intro s d h1 h2
    simp [eqStage, h1, h2]

/-- C7 (witness): an unreadable speed parameter leaves a concrete chunk
untouched by the effect chain. -/
theorem C7_witness :
    effectStage [] [] true ⟨none, some 1, some 1, some 1, some true, none⟩ [5] = [5] :=
  C7_amended.1 [] [] ⟨none, some 1, some 1, some 1, some true, none⟩ true [5]
    (Or.inl rfl)

/-- C10 (witness): a concrete player whose track 0 is exhausted. -/
theorem C10_witness :
    get_data [] [] ⟨none, none, none, none, none, none⟩ false
      ⟨[[7, 8]], [2], [1], false⟩ 0 =
      (some [], ⟨[[7, 8]], [2], [1], false⟩) :=
  C10_theorem [] [] ⟨none, none, none, none, none, none⟩ false
    ⟨[[7, 8]], [2], [1], false⟩ 0 (by decide)

end MISST
